import Mathlib

/-!
Shallow embedding of hyper_serde (src/lib.rs): serde adapters for hyper
types, centred on the header-collection codec (De<Headers>::deserialize,
Ser<'a, Headers>::serialize), together with theorems settling the claims
of the specification.

Byte strings are lists of naturals (the bytes); text is a list of unicode
scalar values.  External collaborators (hyper's Headers container, the
time crate) are modelled from the specification at their boundary, as
noted on each definition.
-/

namespace HyperSerde

/-- A header name, as a list of unicode scalar values. -/
abbrev Name := List Nat

/-- ASCII lowercase fold, the case-insensitive identity of header names
used by hyper's Headers container. -/
def asciiLower (c : Nat) : Nat := if 65 ≤ c ∧ c ≤ 90 then c + 32 else c

/-- Case-insensitive equality of header names. -/
def nameEq (a b : Name) : Bool := a.map asciiLower == b.map asciiLower

/-- Modelled from the spec: hyper's Headers container (a dependency, not
under src/): an insertion-ordered association list from case-insensitive
names to lists of raw byte-string values (spec section 3,
HeaderCollection). -/
structure Headers where
  entries : List (Name × List (List Nat))
deriving DecidableEq

/-- Headers::new — the empty collection. -/
def Headers.new : Headers := ⟨[]⟩

/-- Replace the value list of the first case-insensitively matching entry,
keeping its position and stored name; append a fresh entry otherwise. -/
def setRawAux (k : Name) (v : List (List Nat)) :
    List (Name × List (List Nat)) → List (Name × List (List Nat))
  | [] => [(k, v)]
  | e :: rest => if nameEq k e.1 then (e.1, v) :: rest else e :: setRawAux k v rest

/-- Modelled from the spec: Headers::set_raw — re-insertion of an existing
name replaces its whole value list (spec section 3). -/
def Headers.set_raw (h : Headers) (k : Name) (v : List (List Nat)) : Headers :=
  ⟨setRawAux k v h.entries⟩

/-- Modelled from the spec: Headers::get_raw — the value list stored under
a case-insensitively matching name, if any. -/
def Headers.get_raw (h : Headers) (k : Name) : Option (List (List Nat)) :=
  (h.entries.find? (fun e => nameEq k e.1)).map Prod.snd

/-- All stored names pairwise case-insensitively distinct — the invariant
any Headers value built through new and set_raw maintains. -/
def distinctNames : List (Name × List (List Nat)) → Bool
  | [] => true
  | e :: rest => rest.all (fun f => !nameEq e.1 f.1) && distinctNames rest

/-- Container invariant of a header collection. -/
def Headers.wf (h : Headers) : Prop := distinctNames h.entries = true

instance (h : Headers) : Decidable h.wf := by
  unfold Headers.wf
  infer_instance

/-- The generic serialization value model consumed at this library's
boundary (spec section 3, GenericValue; serde's data model).  A sequence
carries the length hint its deserializer would report through size_hint. -/
inductive GenValue : Type where
  | unit : GenValue
  | boolV : Bool → GenValue
  | intV : Int → GenValue
  | text : List Nat → GenValue
  | bytes : List Nat → GenValue
  | seq : Nat → List GenValue → GenValue
  | map : List (GenValue × GenValue) → GenValue

/-- UTF-8 encoding of one unicode scalar value. -/
def utf8EncodeChar (n : Nat) : List Nat :=
  if n < 0x80 then [n]
  else if n < 0x800 then [0xC0 + n / 64, 0x80 + n % 64]
  else if n < 0x10000 then [0xE0 + n / 4096, 0x80 + n / 64 % 64, 0x80 + n % 64]
  else [0xF0 + n / 0x40000, 0x80 + n / 4096 % 64, 0x80 + n / 64 % 64, 0x80 + n % 64]

/-- UTF-8 encoding of a string of scalar values (Rust's str::as_bytes). -/
def utf8Encode : List Nat → List Nat
  | [] => []
  | c :: cs => utf8EncodeChar c ++ utf8Encode cs

/-- Whether a byte is a UTF-8 continuation byte (10xxxxxx). -/
def isCont (b : Nat) : Prop := 0x80 ≤ b ∧ b < 0xC0

instance (b : Nat) : Decidable (isCont b) := by unfold isCont; infer_instance

/-- Decode one scalar value from the front of a byte list, strictly —
rejecting overlong forms, surrogates and out-of-range values — as the
validation of Rust's str::from_utf8 does. -/
def utf8DecodeOne : List Nat → Option (Nat × List Nat)
  | [] => none
  | b0 :: t0 =>
    if b0 < 0x80 then some (b0, t0)
    else if b0 < 0xC2 then none
    else if b0 < 0xE0 then
      match t0 with
      | b1 :: t1 =>
        if isCont b1 then some ((b0 - 0xC0) * 64 + (b1 - 0x80), t1) else none
      | [] => none
    else if b0 < 0xF0 then
      match t0 with
      | b1 :: b2 :: t2 =>
        if isCont b1 ∧ isCont b2 then
          if (b0 - 0xE0) * 4096 + (b1 - 0x80) * 64 + (b2 - 0x80) < 0x800 then none
          else if 0xD800 ≤ (b0 - 0xE0) * 4096 + (b1 - 0x80) * 64 + (b2 - 0x80) ∧
              (b0 - 0xE0) * 4096 + (b1 - 0x80) * 64 + (b2 - 0x80) < 0xE000 then none
          else some ((b0 - 0xE0) * 4096 + (b1 - 0x80) * 64 + (b2 - 0x80), t2)
        else none
      | _ => none
    else if b0 < 0xF5 then
      match t0 with
      | b1 :: b2 :: b3 :: t3 =>
        if isCont b1 ∧ isCont b2 ∧ isCont b3 then
          if (b0 - 0xF0) * 0x40000 + (b1 - 0x80) * 4096 + (b2 - 0x80) * 64 + (b3 - 0x80)
              < 0x10000 then none
          else if 0x110000 ≤
              (b0 - 0xF0) * 0x40000 + (b1 - 0x80) * 4096 + (b2 - 0x80) * 64 + (b3 - 0x80)
            then none
          else some
            ((b0 - 0xF0) * 0x40000 + (b1 - 0x80) * 4096 + (b2 - 0x80) * 64 + (b3 - 0x80), t3)
        else none
      | _ => none
    else none

/-- Fuelled version of whole-list UTF-8 decoding; one unit of fuel is
spent per decoded scalar, and each scalar consumes at least one byte, so
fuel equal to the byte count always suffices. -/
def utf8DecodeAux : Nat → List Nat → Option (List Nat)
  | 0, bs => if bs.isEmpty then some [] else none
  | fuel + 1, bs =>
    match utf8DecodeOne bs with
    | some (n, rest) => (utf8DecodeAux fuel rest).map (fun cs => n :: cs)
    | none => if bs.isEmpty then some [] else none

/-- Strict UTF-8 decoding of a whole byte list (Rust's str::from_utf8):
the scalar values, or none when the bytes are not valid UTF-8. -/
def utf8Decode (bs : List Nat) : Option (List Nat) :=
  utf8DecodeAux bs.length bs

/-- One element of a header value list, decoded as serde's ByteBuf: a
text element yields its UTF-8 byte encoding, a byte-sequence element its
raw bytes verbatim; any other variant is a type mismatch carrying the
value visitor's expectation (lib.rs 353-379, spec section 4.2 step 2b). -/
def decodeElement : GenValue → Except String (List Nat)
  | .text s => .ok (utf8Encode s)
  | .bytes bs => .ok bs
  | _ => .error "expected an array of strings and sequences of bytes"

/-- The element loop of ValueVisitor::visit_seq (lib.rs 374-376): decode
each element in arrival order, aborting on the first failure. -/
def decodeElements : List GenValue → Except String (List (List Nat))
  | [] => .ok []
  | e :: es =>
    match decodeElement e with
    | .error msg => .error msg
    | .ok v =>
      match decodeElements es with
      | .error msg => .error msg
      | .ok vs => .ok (v :: vs)

/-- ValueVisitor::visit_seq (lib.rs 368-378): clamp the untrusted size
hint to 64 for the pre-allocation, then consume the elements; the
pre-allocated capacity is returned alongside the decoded values. -/
def visitSeq (hint : Nat) (elems : List GenValue) :
    Except String (Nat × List (List Nat)) :=
  let capacity := min hint 64
  match decodeElements elems with
  | .error msg => .error msg
  | .ok values => .ok (capacity, values)

/-- Deserialization of one header value list (lib.rs 343-379): serde
dispatches unit to visit_unit, a sequence to visit_seq, and rejects any
other variant with the visitor's expectation. -/
def decodeValue : GenValue → Except String (List (List Nat))
  | .unit => .ok []
  | .seq hint elems => (visitSeq hint elems).map Prod.snd
  | _ => .error "expected an array of strings and sequences of bytes"

/-- Modelled from the spec: a map key is decoded as a string (lib.rs 336);
a non-text key is a decode error as in spec section 4.2 step 2a. -/
def decodeKey : GenValue → Except String Name
  | .text s => .ok s
  | _ => .error "expected a map from header names to header values"

/-- The entry loop of HeadersVisitor::visit_map (lib.rs 335-339): decode
each key and value list in map order, set_raw them into the collection. -/
def decodeEntries : Headers → List (GenValue × GenValue) → Except String Headers
  | hs, [] => .ok hs
  | hs, (k, v) :: rest =>
    match decodeKey k with
    | .error msg => .error msg
    | .ok name =>
      match decodeValue v with
      | .error msg => .error msg
      | .ok vs => decodeEntries (hs.set_raw name vs) rest

/-- De<Headers>::deserialize (lib.rs 311-383): unit yields the empty
collection, a map is folded entry by entry, anything else is rejected
with the headers visitor's expectation. -/
def deserializeHeaders : GenValue → Except String Headers
  | .unit => .ok Headers.new
  | .map entries => decodeEntries Headers.new entries
  | _ => .error "expected a map from header names to header values"

/-- One value element as emitted by Ser<'a, Headers> (lib.rs 397-405): in
pretty mode a valid-UTF-8 byte string becomes a text element, anything
else a byte-sequence element; compact mode always emits byte-sequence. -/
def encodeElement (pretty : Bool) (v : List Nat) : GenValue :=
  if pretty then
    match utf8Decode v with
    | some s => .text s
    | none => .bytes v
  else .bytes v

/-- Value::serialize inside Ser<'a, Headers>::serialize (lib.rs 391-408):
a sequence with the true length as hint, elements in stored order. -/
def serializeValue (pretty : Bool) (vs : List (List Nat)) : GenValue :=
  .seq vs.length (vs.map (encodeElement pretty))

/-- The entry loop of Ser<'a, Headers>::serialize (lib.rs 411-415): each
stored name is looked up again via get_raw and unwrapped; a failed unwrap
(the none case) is the panic the source risks. -/
def serializeEntries (h : Headers) (pretty : Bool) :
    List (Name × List (List Nat)) → Option (List (GenValue × GenValue))
  | [] => some []
  | e :: rest =>
    match h.get_raw e.1 with
    | none => none
    | some vs =>
      match serializeEntries h pretty rest with
      | none => none
      | some tail => some ((GenValue.text e.1, serializeValue pretty vs) :: tail)

/-- Ser<'a, Headers>::serialize (lib.rs 385-418) with the sink abstracted:
the generic value built, or none for a get_raw().unwrap() panic. -/
def serializeHeaders (pretty : Bool) (h : Headers) : Option GenValue :=
  (serializeEntries h pretty h.entries).map GenValue.map

/-- The Ser wrapper (lib.rs 152-155): a borrowed value plus the mode flag. -/
structure Ser (T : Type) where
  v : T
  pretty : Bool

/-- Ser::new (lib.rs 162-167): compact mode. -/
def Ser.new {T : Type} (value : T) : Ser T := ⟨value, false⟩

/-- Ser::new_pretty (lib.rs 173-178): pretty mode. -/
def Ser.new_pretty {T : Type} (value : T) : Ser T := ⟨value, true⟩

/-- Running a Ser<'a, Headers> wrapper as a serializer. -/
def Ser.run (w : Ser Headers) : Option GenValue := serializeHeaders w.pretty w.v

/-- The owning Serde wrapper (lib.rs 183-186): owns exactly one T. -/
structure Serde (T : Type) where
  val : T

/-- Serde::into_inner (lib.rs 192-197). -/
def Serde.into_inner {T : Type} (s : Serde T) : T := s.val

/-- The Deref impl (lib.rs 209-218): read-through access to the inner value. -/
def Serde.deref {T : Type} (s : Serde T) : T := s.val

/-- The DerefMut impl (lib.rs 220-227), as a write-through update. -/
def Serde.derefSet {T : Type} (_s : Serde T) (t : T) : Serde T := ⟨t⟩

/-- The PartialEq<T> impl (lib.rs 229-236): self.0 == *other. -/
def Serde.beqInner {T : Type} [BEq T] (s : Serde T) (o : T) : Bool := s.val == o

/-- The Debug impl (lib.rs 199-207): self.0.fmt(formatter). -/
def Serde.debugFmt {T : Type} (f : T → String) (s : Serde T) : String := f s.val

/-- The Serialize impl of Serde<T> (lib.rs 249-258) at T = Headers:
Ser::new(&self.0).serialize(serializer). -/
def Serde.serializeHeaders (s : Serde Headers) : Option GenValue :=
  (Ser.new s.val).run

/-- The top-level serialize function (lib.rs 94-99) at Headers. -/
def serializeTop (h : Headers) : Option GenValue := (Ser.new h).run

/-- The top-level serialize_pretty function (lib.rs 110-117) at Headers. -/
def serializePretty (h : Headers) : Option GenValue := (Ser.new_pretty h).run

/-- Modelled from the spec: the time crate's Tm (a dependency, not under
src/), at the precision this codec uses — calendar fields plus a UTC
offset in seconds. -/
structure Tm where
  year : Nat
  month : Nat
  day : Nat
  hour : Nat
  minute : Nat
  second : Nat
  utcoff : Int
deriving DecidableEq

/-- One ASCII decimal digit. -/
def parseDigit (c : Nat) : Option Nat :=
  if 48 ≤ c ∧ c ≤ 57 then some (c - 48) else none

/-- Two ASCII digits as a number below 100. -/
def parse2 (a b : Nat) : Option Nat :=
  match parseDigit a, parseDigit b with
  | some x, some y => some (10 * x + y)
  | _, _ => none

/-- Four ASCII digits as a number below 10000. -/
def parse4 (a b c d : Nat) : Option Nat :=
  match parseDigit a, parseDigit b, parseDigit c, parseDigit d with
  | some x, some y, some z, some w => some (1000 * x + 100 * y + 10 * z + w)
  | _, _, _, _ => none

/-- Modelled from the spec: time's strptime at pattern %Y-%m-%dT%H:%M:%SZ
(lib.rs 519), strict — exactly this shape, UTC, second precision, a
literal trailing Z (spec section 4.3); any deviation fails. -/
def parseTm (s : List Nat) : Option Tm :=
  match s with
  | [y1, y2, y3, y4, c1, m1, m2, c2, d1, d2, c3, h1, h2, c4, n1, n2, c5, s1, s2, c6] =>
    if c1 = 45 ∧ c2 = 45 ∧ c3 = 84 ∧ c4 = 58 ∧ c5 = 58 ∧ c6 = 90 then
      match parse4 y1 y2 y3 y4, parse2 m1 m2, parse2 d1 d2,
          parse2 h1 h2, parse2 n1 n2, parse2 s1 s2 with
      | some y, some mo, some d, some h, some mi, some se =>
        some ⟨y, mo, d, h, mi, se, 0⟩
      | _, _, _, _, _, _ => none
    else none
  | _ => none

/-- Two-digit zero-padded decimal rendering. -/
def pad2 (n : Nat) : List Nat := [48 + n / 10 % 10, 48 + n % 10]

/-- Four-digit zero-padded decimal rendering. -/
def pad4 (n : Nat) : List Nat :=
  [48 + n / 1000 % 10, 48 + n / 100 % 10, 48 + n / 10 % 10, 48 + n % 10]

/-- Modelled from the spec: the time crate's Tm::rfc3339 formatter used in
lib.rs 533 — a Z suffix at UTC offset zero, a signed hh:mm offset
otherwise (so its output can deviate from the strict input pattern). -/
def rfc3339 (t : Tm) : List Nat :=
  pad4 t.year ++ [45] ++ pad2 t.month ++ [45] ++ pad2 t.day ++ [84] ++
    pad2 t.hour ++ [58] ++ pad2 t.minute ++ [58] ++ pad2 t.second ++
    (if t.utcoff = 0 then [90]
     else [if 0 < t.utcoff then 43 else 45] ++ pad2 (t.utcoff.natAbs / 3600) ++
       [58] ++ pad2 (t.utcoff.natAbs % 3600 / 60))

/-- De<Tm>::deserialize (lib.rs 503-527): text parsed via strptime, other
variants rejected with the visitor's expectation. -/
def deserializeTm : GenValue → Except String Tm
  | .text s =>
    match parseTm s with
    | some t => .ok t
    | none => .error "invalid strptime input"
  | _ => .error "a date and time according to RFC 3339"

/-- Ser<'a, Tm>::serialize (lib.rs 529-535): the rfc3339 rendering, as text. -/
def serializeTm (t : Tm) : GenValue := .text (rfc3339 t)

/-- Unicode scalar values of a Lean string literal, for concrete examples. -/
def strCodes (s : String) : List Nat := s.data.map Char.toNat

/-! ### Lemmas about the UTF-8 codec -/

theorem utf8EncodeChar_utf8DecodeOne {bs : List Nat} {n : Nat} {rest : List Nat}
    (h : utf8DecodeOne bs = some (n, rest)) : utf8EncodeChar n ++ rest = bs := by
  match bs with
  | [] => simp [utf8DecodeOne] at h
  | b0 :: t0 =>
    unfold utf8DecodeOne at h
    repeat' split at h
    all_goals simp_all [isCont]
    all_goals obtain ⟨rfl, rfl⟩ := h
    all_goals unfold utf8EncodeChar
    · rw [if_pos (by omega)]
      simp
    · rw [if_neg (by omega), if_pos (by omega)]
      simp only [List.cons_append, List.nil_append, List.cons.injEq]
      exact ⟨by omega, by omega, trivial⟩
    · rw [if_neg (by omega), if_neg (by omega), if_pos (by omega)]
      simp only [List.cons_append, List.nil_append, List.cons.injEq]
      exact ⟨by omega, by omega, by omega, trivial⟩
    · rw [if_neg (by omega), if_neg (by omega), if_neg (by omega)]
      simp only [List.cons_append, List.nil_append, List.cons.injEq]
      exact ⟨by omega, by omega, by omega, by omega, trivial⟩

theorem utf8Encode_utf8DecodeAux :
    ∀ (fuel : Nat) (bs cs : List Nat),
      utf8DecodeAux fuel bs = some cs → utf8Encode cs = bs := by
  intro fuel
  induction fuel with
  | zero =>
    intro bs cs h
    unfold utf8DecodeAux at h
    split at h
    · simp_all [List.isEmpty_iff]
      subst h
      rfl
    · simp at h
  | succ fuel ih =>
    intro bs cs h
    unfold utf8DecodeAux at h
    split at h
    · next n rest hone =>
      cases hrest : utf8DecodeAux fuel rest with
      | none => rw [hrest] at h; simp at h
      | some cs2 =>
        rw [hrest] at h
        have h2 : n :: cs2 = cs := by simpa using h
        subst h2
        have hrec := ih rest cs2 hrest
        show utf8EncodeChar n ++ utf8Encode cs2 = bs
        rw [hrec, utf8EncodeChar_utf8DecodeOne hone]
    · split at h
      · simp_all [List.isEmpty_iff]
        subst h
        rfl
      · simp at h

/-- Strict decoding is a right inverse of encoding: encoding a decoded
byte string reproduces it exactly. -/
theorem utf8Encode_utf8Decode {bs cs : List Nat}
    (h : utf8Decode bs = some cs) : utf8Encode cs = bs :=
  utf8Encode_utf8DecodeAux bs.length bs cs h

/-! ### Lemmas about the header container -/

theorem nameEq_refl (a : Name) : nameEq a a = true := by
  simp [nameEq]

theorem nameEq_symm (a b : Name) : nameEq a b = nameEq b a := by
  unfold nameEq
  by_cases h : a.map asciiLower = b.map asciiLower
  · rw [h]
  · rw [beq_eq_false_iff_ne.mpr h, beq_eq_false_iff_ne.mpr (Ne.symm h)]

theorem setRawAux_fresh {k : Name} {v : List (List Nat)} :
    ∀ {l : List (Name × List (List Nat))},
      (∀ e ∈ l, nameEq k e.1 = false) → setRawAux k v l = l ++ [(k, v)] := by
  intro l
  induction l with
  | nil => intro _; rfl
  | cons e rest ih =>
    intro hfresh
    have h0 : nameEq k e.1 = false := hfresh e (by simp)
    have h1 := ih (fun f hf => hfresh f (by simp [hf]))
    simp [setRawAux, h0, h1]

theorem setRawAux_set_again {k : Name} {va vb : List (List Nat)} :
    ∀ (l : List (Name × List (List Nat))),
      setRawAux k vb (setRawAux k va l) = setRawAux k vb l := by
  intro l
  induction l with
  | nil => simp [setRawAux, nameEq_refl]
  | cons e rest ih =>
    by_cases h0 : nameEq k e.1 = true
    · simp [setRawAux, h0]
    · have h0f : nameEq k e.1 = false := by
        cases hb : nameEq k e.1
        · rfl
        · exact absurd hb h0
      simp [setRawAux, h0f, ih]

/-- Setting a name twice keeps only the later value list: no merging. -/
theorem set_raw_set_raw (h : Headers) (k : Name) (va vb : List (List Nat)) :
    (h.set_raw k va).set_raw k vb = h.set_raw k vb := by
  unfold Headers.set_raw
  rw [setRawAux_set_again]

theorem distinctNames_cons {e : Name × List (List Nat)}
    {rest : List (Name × List (List Nat))}
    (h : distinctNames (e :: rest) = true) :
    (∀ f ∈ rest, nameEq e.1 f.1 = false) ∧ distinctNames rest = true := by
  unfold distinctNames at h
  rw [Bool.and_eq_true, List.all_eq_true] at h
  refine ⟨fun f hf => ?_, h.2⟩
  have := h.1 f hf
  cases hb : nameEq e.1 f.1
  · rfl
  · rw [hb] at this; simp at this

/-- On a collection where the name is not yet present, set_raw appends. -/
theorem set_raw_append {h : Headers} {k : Name}
    (hfresh : ∀ e ∈ h.entries, nameEq k e.1 = false)
    (v : List (List Nat)) :
    h.set_raw k v = ⟨h.entries ++ [(k, v)]⟩ := by
  unfold Headers.set_raw
  rw [setRawAux_fresh hfresh]

/-- In a collection with pairwise distinct names, get_raw of a stored
entry's name finds exactly that entry's value list. -/
theorem get_raw_of_mem :
    ∀ {l : List (Name × List (List Nat))} {e : Name × List (List Nat)},
      distinctNames l = true → e ∈ l →
      Headers.get_raw ⟨l⟩ e.1 = some e.2 := by
  intro l
  induction l with
  | nil => intro e _ hmem; simp at hmem
  | cons f rest ih =>
    intro e hdist hmem
    obtain ⟨hfr, hrest⟩ := distinctNames_cons hdist
    rcases List.mem_cons.mp hmem with hef | hmem2
    · subst hef
      simp [Headers.get_raw, List.find?, nameEq_refl]
    · have hne : nameEq e.1 f.1 = false := by
        rw [nameEq_symm]; exact hfr e hmem2
      have := ih hrest hmem2
      simpa [Headers.get_raw, List.find?, hne] using this

/-- get_raw of a stored entry's name always succeeds, distinct or not. -/
theorem get_raw_isSome_of_mem :
    ∀ {l : List (Name × List (List Nat))} {e : Name × List (List Nat)},
      e ∈ l → (Headers.get_raw ⟨l⟩ e.1).isSome = true := by
  intro l
  induction l with
  | nil => intro e hmem; simp at hmem
  | cons f rest ih =>
    intro e hmem
    rcases List.mem_cons.mp hmem with hef | hmem2
    · subst hef
      simp [Headers.get_raw, List.find?, nameEq_refl]
    · cases hb : nameEq e.1 f.1
      · have := ih hmem2
        simpa [Headers.get_raw, List.find?, hb] using this
      · simp [Headers.get_raw, List.find?, hb]

/-! ### Round-trip lemmas for the header codec -/

theorem decodeElement_encodeElement (pretty : Bool) (v : List Nat) :
    decodeElement (encodeElement pretty v) = .ok v := by
  cases pretty with
  | false => rfl
  | true =>
    unfold encodeElement
    cases hdec : utf8Decode v with
    | none => simp [decodeElement]
    | some s => simp [decodeElement, utf8Encode_utf8Decode hdec]

theorem decodeElements_map_encode (pretty : Bool) :
    ∀ (vs : List (List Nat)),
      decodeElements (vs.map (encodeElement pretty)) = .ok vs := by
  intro vs
  induction vs with
  | nil => rfl
  | cons v vs ih =>
    simp [decodeElements, decodeElement_encodeElement, ih]

theorem decodeValue_serializeValue (pretty : Bool) (vs : List (List Nat)) :
    decodeValue (serializeValue pretty vs) = .ok vs := by
  simp [serializeValue, decodeValue, visitSeq, decodeElements_map_encode,
    Except.map]

theorem serializeEntries_of_getraw (pretty : Bool) (h : Headers) :
    ∀ (sub : List (Name × List (List Nat))),
      (∀ e ∈ sub, h.get_raw e.1 = some e.2) →
      serializeEntries h pretty sub =
        some (sub.map (fun e => (GenValue.text e.1, serializeValue pretty e.2))) := by
  intro sub
  induction sub with
  | nil => intro _; rfl
  | cons e rest ih =>
    intro hget
    have h0 : h.get_raw e.1 = some e.2 := hget e (by simp)
    have h1 := ih (fun f hf => hget f (by simp [hf]))
    simp [serializeEntries, h0, h1]

/-- Under the container invariant, the encoder emits exactly one map
entry per stored entry, in stored order. -/
theorem serializeHeaders_of_wf (pretty : Bool) (h : Headers) (hwf : h.wf) :
    serializeHeaders pretty h =
      some (.map (h.entries.map
        (fun e => (GenValue.text e.1, serializeValue pretty e.2)))) := by
  unfold serializeHeaders
  rw [serializeEntries_of_getraw pretty h h.entries
    (fun e he => get_raw_of_mem hwf he)]
  rfl

theorem serializeEntries_isSome (pretty : Bool) (h : Headers) :
    ∀ (sub : List (Name × List (List Nat))),
      (∀ e ∈ sub, e ∈ h.entries) →
      (serializeEntries h pretty sub).isSome = true := by
  intro sub
  induction sub with
  | nil => intro _; rfl
  | cons e rest ih =>
    intro hsub
    have h0 : (h.get_raw e.1).isSome = true :=
      get_raw_isSome_of_mem (hsub e (by simp))
    obtain ⟨vs, hvs⟩ := Option.isSome_iff_exists.mp h0
    have h1 := ih (fun f hf => hsub f (by simp [hf]))
    obtain ⟨tail, htail⟩ := Option.isSome_iff_exists.mp h1
    simp [serializeEntries, hvs, htail]

/-- Decoding the encoded entries of a distinct-name entry list appends
them, in order and unchanged, to the accumulated collection. -/
theorem decodeEntries_encoded (pretty : Bool) :
    ∀ (rest acc : List (Name × List (List Nat))),
      distinctNames rest = true →
      (∀ e ∈ rest, ∀ a ∈ acc, nameEq e.1 a.1 = false) →
      decodeEntries ⟨acc⟩
          (rest.map (fun e => (GenValue.text e.1, serializeValue pretty e.2))) =
        .ok ⟨acc ++ rest⟩ := by
  intro rest
  induction rest with
  | nil => intro acc _ _; simp [decodeEntries]
  | cons e rest ih =>
    intro acc hdist hfresh
    obtain ⟨hr, hdrest⟩ := distinctNames_cons hdist
    have hset : Headers.set_raw ⟨acc⟩ e.1 e.2 = ⟨acc ++ [e]⟩ := by
      apply set_raw_append
      intro a ha
      exact hfresh e (by simp) a ha
    have hfresh2 : ∀ f ∈ rest, ∀ a ∈ acc ++ [e], nameEq f.1 a.1 = false := by
      intro f hf a ha
      rcases List.mem_append.mp ha with h1 | h2
      · exact hfresh f (by simp [hf]) a h1
      · have : a = e := by simpa using h2
        subst this
        rw [nameEq_symm]
        exact hr f hf
    have hrec := ih (acc ++ [e]) hdrest hfresh2
    simp only [List.map_cons, decodeEntries, decodeKey,
      decodeValue_serializeValue, hset, hrec]
    simp

/-! ### Lemmas about value-list element decoding -/

theorem decodeElement_other {e : GenValue}
    (ht : ∀ s, e ≠ .text s) (hb : ∀ bs, e ≠ .bytes bs) :
    decodeElement e = .error "expected an array of strings and sequences of bytes" := by
  cases e with
  | text s => exact absurd rfl (ht s)
  | bytes bs => exact absurd rfl (hb bs)
  | unit => rfl
  | boolV b => rfl
  | intV n => rfl
  | seq hint l => rfl
  | map m => rfl

theorem decodeElements_error_mid :
    ∀ (pre : List GenValue) (e : GenValue) (post : List GenValue),
      (∀ x ∈ pre, ∃ bs, decodeElement x = .ok bs) →
      decodeElement e = .error "expected an array of strings and sequences of bytes" →
      decodeElements (pre ++ e :: post) =
        .error "expected an array of strings and sequences of bytes" := by
  intro pre
  induction pre with
  | nil =>
    intro e post _ he
    simp [decodeElements, he]
  | cons x pre ih =>
    intro e post hok he
    obtain ⟨bs, hbs⟩ := hok x (by simp)
    have hrec := ih e post (fun y hy => hok y (by simp [hy])) he
    simp [decodeElements, hbs, hrec]

theorem decodeElements_length :
    ∀ (elems : List GenValue) (vs : List (List Nat)),
      decodeElements elems = .ok vs → vs.length = elems.length := by
  intro elems
  induction elems with
  | nil =>
    intro vs h
    simp [decodeElements] at h
    simp [← h]
  | cons e es ih =>
    intro vs h
    cases hde : decodeElement e with
    | error msg => simp [decodeElements, hde] at h
    | ok v =>
      cases hds : decodeElements es with
      | error msg => simp [decodeElements, hde, hds] at h
      | ok vs2 =>
        simp [decodeElements, hde, hds] at h
        subst h
        simp [ih vs2 hds]

theorem decodeElements_get? :
    ∀ (elems : List GenValue) (vs : List (List Nat)),
      decodeElements elems = .ok vs →
      ∀ i : Nat,
        (elems.get? i).bind (fun e => (decodeElement e).toOption) = vs.get? i := by
  intro elems
  induction elems with
  | nil =>
    intro vs h i
    simp [decodeElements] at h
    subst h
    simp
  | cons e es ih =>
    intro vs h i
    cases hde : decodeElement e with
    | error msg => simp [decodeElements, hde] at h
    | ok v =>
      cases hds : decodeElements es with
      | error msg => simp [decodeElements, hde, hds] at h
      | ok vs2 =>
        simp [decodeElements, hde, hds] at h
        subst h
        cases i with
        | zero => simp [hde, Except.toOption]
        | succ j => simpa using ih vs2 hds j

/-! ### Lemmas about the timestamp codec -/

theorem parseDigit_inv {c n : Nat} (h : parseDigit c = some n) :
    c = 48 + n ∧ n ≤ 9 := by
  unfold parseDigit at h
  split at h
  · next hc =>
    simp only [Option.some.injEq] at h
    omega
  · simp at h

theorem parse2_pad2 {a b n : Nat} (h : parse2 a b = some n) : pad2 n = [a, b] := by
  unfold parse2 at h
  cases hda : parseDigit a with
  | none => rw [hda] at h; simp at h
  | some x =>
    cases hdb : parseDigit b with
    | none => rw [hda, hdb] at h; simp at h
    | some y =>
      rw [hda, hdb] at h
      simp only [Option.some.injEq] at h
      obtain ⟨hx1, hx2⟩ := parseDigit_inv hda
      obtain ⟨hy1, hy2⟩ := parseDigit_inv hdb
      subst h
      simp only [pad2, List.cons.injEq, and_true]
      omega

theorem parse4_pad4 {a b c d n : Nat} (h : parse4 a b c d = some n) :
    pad4 n = [a, b, c, d] := by
  unfold parse4 at h
  cases hda : parseDigit a with
  | none => rw [hda] at h; simp at h
  | some x =>
    cases hdb : parseDigit b with
    | none => rw [hda, hdb] at h; simp at h
    | some y =>
      cases hdc : parseDigit c with
      | none => rw [hda, hdb, hdc] at h; simp at h
      | some z =>
        cases hdd : parseDigit d with
        | none => rw [hda, hdb, hdc, hdd] at h; simp at h
        | some w =>
          rw [hda, hdb, hdc, hdd] at h
          simp only [Option.some.injEq] at h
          obtain ⟨hx1, hx2⟩ := parseDigit_inv hda
          obtain ⟨hy1, hy2⟩ := parseDigit_inv hdb
          obtain ⟨hz1, hz2⟩ := parseDigit_inv hdc
          obtain ⟨hw1, hw2⟩ := parseDigit_inv hdd
          subst h
          simp only [pad4, List.cons.injEq, and_true]
          omega

/-- Whatever the strict pattern accepts is at UTC offset zero, and the
rfc3339 formatter reproduces its text exactly. -/
theorem rfc3339_parseTm :
    ∀ {s : List Nat} {t : Tm}, parseTm s = some t →
      t.utcoff = 0 ∧ rfc3339 t = s := by
  intro s t h
  unfold parseTm at h
  split at h
  · next y1 y2 y3 y4 c1 m1 m2 c2 d1 d2 c3 h1 h2 c4 n1 n2 c5 s1 s2 c6 =>
    split at h
    · next hc =>
      obtain ⟨hc1, hc2, hc3, hc4, hc5, hc6⟩ := hc
      split at h
      · next y mo d hh mi se hp4 hp2a hp2b hp2c hp2d hp2e =>
        simp only [Option.some.injEq] at h
        subst h
        refine ⟨rfl, ?_⟩
        simp [rfc3339, parse4_pad4 hp4, parse2_pad2 hp2a, parse2_pad2 hp2b,
          parse2_pad2 hp2c, parse2_pad2 hp2d, parse2_pad2 hp2e,
          hc1, hc2, hc3, hc4, hc5, hc6]
      · simp at h
    · simp at h
  · simp at h

/-! ### The claims -/

/-- C1: for every well-formed header collection, decoding the encoded
form (De<Headers>::deserialize after Ser<'a, Headers>::serialize) yields
a collection with identical names in the same order, identical per-name
value lists in the same order and identical byte content, in compact and
in pretty mode alike. -/
theorem claim1_roundtrip (pretty : Bool) (h : Headers) (hwf : h.wf) :
    ∃ g, serializeHeaders pretty h = some g ∧ deserializeHeaders g = .ok h := by
  refine ⟨_, serializeHeaders_of_wf pretty h hwf, ?_⟩
  show deserializeHeaders (.map (h.entries.map _)) = .ok h
  unfold deserializeHeaders
  have := decodeEntries_encoded pretty h.entries [] hwf (by simp)
  simpa [Headers.new] using this

/-- Witness for C1 at the spec's example: names A and B with byte-string
values [1, 2] under A and [3] under B, in both modes. -/
theorem claim1_roundtrip_witness :
    Headers.wf ⟨[([65], [[1, 2]]), ([66], [[3]])]⟩ ∧
    (∃ g, serializeHeaders true ⟨[([65], [[1, 2]]), ([66], [[3]])]⟩ = some g ∧
      deserializeHeaders g = .ok ⟨[([65], [[1, 2]]), ([66], [[3]])]⟩) ∧
    (∃ g, serializeHeaders false ⟨[([65], [[1, 2]]), ([66], [[3]])]⟩ = some g ∧
      deserializeHeaders g = .ok ⟨[([65], [[1, 2]]), ([66], [[3]])]⟩) :=
  ⟨by decide, claim1_roundtrip true _ (by decide),
    claim1_roundtrip false _ (by decide)⟩

/-- C2: the buffer pre-allocated by ValueVisitor::visit_seq has capacity
exactly min(declared hint, 64) whatever the hint declares, and a decode
that succeeds yields exactly one stored element per element actually
supplied, independent of the hint. -/
theorem claim2_alloc_clamp (hint : Nat) (elems : List GenValue)
    (cap : Nat) (vs : List (List Nat))
    (h : visitSeq hint elems = .ok (cap, vs)) :
    cap = min hint 64 ∧ cap ≤ 64 ∧ vs.length = elems.length := by
  unfold visitSeq at h
  cases hds : decodeElements elems with
  | error msg => rw [hds] at h; simp at h
  | ok values =>
    rw [hds] at h
    simp only [Except.ok.injEq, Prod.mk.injEq] at h
    obtain ⟨h1, h2⟩ := h
    subst h1
    subst h2
    exact ⟨rfl, Nat.min_le_right hint 64,
      decodeElements_length elems values hds⟩

/-- Witness for C2: a declared hint of 10000 with only two supplied
elements pre-allocates 64 slots and succeeds with a two-element list. -/
theorem claim2_alloc_clamp_witness :
    visitSeq 10000 [.bytes [97], .bytes [98]] = .ok (64, [[97], [98]]) ∧
    (64 = min 10000 64 ∧ 64 ≤ 64 ∧
      ([[97], [98]] : List (List Nat)).length =
        [GenValue.bytes [97], GenValue.bytes [98]].length) :=
  ⟨rfl, claim2_alloc_clamp 10000 _ 64 _ rfl⟩

/-- C3: each stored byte-string value element is emitted as text exactly
when the pretty flag is set and the bytes are valid UTF-8 (the text then
holding that UTF-8 string), as a byte-sequence otherwise — compact mode
always emitting byte-sequence — and the mode never changes the byte
content recovered by decoding the element. -/
theorem claim3_element_mode (pretty : Bool) (v : List Nat) :
    (pretty = true → ∀ s, utf8Decode v = some s →
      encodeElement pretty v = .text s ∧ utf8Encode s = v) ∧
    (pretty = true → utf8Decode v = none → encodeElement pretty v = .bytes v) ∧
    (pretty = false → encodeElement pretty v = .bytes v) ∧
    decodeElement (encodeElement pretty v) = .ok v := by
  refine ⟨?_, ?_, ?_, decodeElement_encodeElement pretty v⟩
  · rintro rfl s hs
    exact ⟨by simp [encodeElement, hs], utf8Encode_utf8Decode hs⟩
  · rintro rfl hnone
    simp [encodeElement, hnone]
  · rintro rfl
    rfl

/-- Witness for C3 at the bytes of the ASCII string text, which are
valid UTF-8. -/
theorem claim3_element_mode_witness :
    (encodeElement true [116, 101, 120, 116] = .text [116, 101, 120, 116] ∧
      utf8Encode [116, 101, 120, 116] = [116, 101, 120, 116]) ∧
    encodeElement false [116, 101, 120, 116] = .bytes [116, 101, 120, 116] ∧
    decodeElement (encodeElement true [116, 101, 120, 116]) =
      .ok [116, 101, 120, 116] :=
  ⟨(claim3_element_mode true _).1 rfl _ rfl,
    (claim3_element_mode false _).2.2.1 rfl,
    (claim3_element_mode true _).2.2.2⟩

/-- C4: when a decoded map repeats a header name, each later occurrence
entirely replaces the earlier one's value list — the result maps the name
only to the last occurrence's list, and set_raw after set_raw of the same
name is set_raw of the later list alone. -/
theorem claim4_last_wins (n : Name) (v1 v2 : GenValue)
    (la lb : List (List Nat))
    (h1 : decodeValue v1 = .ok la) (h2 : decodeValue v2 = .ok lb) :
    deserializeHeaders (.map [(.text n, v1), (.text n, v2)]) = .ok ⟨[(n, lb)]⟩ ∧
    ∀ h : Headers, (h.set_raw n la).set_raw n lb = h.set_raw n lb := by
  constructor
  · simp [deserializeHeaders, decodeEntries, decodeKey, h1, h2,
      Headers.new, Headers.set_raw, setRawAux, nameEq_refl]
  · intro h
    exact set_raw_set_raw h n la lb

/-- Witness for C4 at the spec's example: key X first with value list
[a], then with [b]. -/
theorem claim4_last_wins_witness :
    deserializeHeaders (.map [(.text [88], .seq 1 [.bytes [97]]),
        (.text [88], .seq 1 [.bytes [98]])]) = .ok ⟨[([88], [[98]])]⟩ ∧
    ∀ h : Headers,
      (h.set_raw [88] [[97]]).set_raw [88] [[98]] = h.set_raw [88] [[98]] :=
  claim4_last_wins [88] _ _ [[97]] [[98]] rfl rfl

/-- C5: decoding a unit value as a header collection yields the empty
collection, and decoding a unit value as a header value list yields the
empty list. -/
theorem claim5_unit_empty :
    deserializeHeaders .unit = .ok ⟨[]⟩ ∧ decodeValue .unit = .ok [] :=
  ⟨rfl, rfl⟩

/-- C6: while decoding a value-list sequence, a text element is accepted
as its UTF-8 encoding, a byte-sequence element verbatim, any other
variant fails the whole decode with the value visitor's expectation, and
accepted elements land in arrival order. -/
theorem claim6_element_rules :
    (∀ s, decodeElement (.text s) = .ok (utf8Encode s)) ∧
    (∀ bs, decodeElement (.bytes bs) = .ok bs) ∧
    (∀ (hint : Nat) (pre : List GenValue) (e : GenValue) (post : List GenValue),
      (∀ x ∈ pre, ∃ bs, decodeElement x = .ok bs) →
      (∀ s, e ≠ .text s) → (∀ bs, e ≠ .bytes bs) →
      decodeValue (.seq hint (pre ++ e :: post)) =
        .error "expected an array of strings and sequences of bytes") ∧
    (∀ (elems : List GenValue) (vs : List (List Nat)),
      decodeElements elems = .ok vs →
      vs.length = elems.length ∧
      ∀ i : Nat, (elems.get? i).bind (fun x => (decodeElement x).toOption) =
        vs.get? i) := by
  refine ⟨fun s => rfl, fun bs => rfl, ?_, ?_⟩
  · intro hint pre e post hok ht hb
    have he := decodeElement_other ht hb
    have hmid := decodeElements_error_mid pre e post hok he
    simp [decodeValue, visitSeq, hmid, Except.map]
  · intro elems vs h
    exact ⟨decodeElements_length elems vs h, decodeElements_get? elems vs h⟩

/-- Witness for C6: a text element, a raw byte element, a sequence with
an integer element failing as a whole, and positional recovery. -/
theorem claim6_element_rules_witness :
    decodeElement (.text [104, 105]) = .ok [104, 105] ∧
    decodeElement (.bytes [255, 0]) = .ok [255, 0] ∧
    decodeValue (.seq 2 [.bytes [1], .intV 7]) =
      .error "expected an array of strings and sequences of bytes" ∧
    ([GenValue.text [104]].get? 0).bind
      (fun x => (decodeElement x).toOption) = some [104] :=
  ⟨claim6_element_rules.1 [104, 105],
    claim6_element_rules.2.1 [255, 0],
    claim6_element_rules.2.2.1 2 [.bytes [1]] (.intV 7) []
      (fun x hx => by
        have hx2 : x = GenValue.bytes [1] := by simpa using hx
        subst hx2
        exact ⟨[1], rfl⟩)
      (fun s hs => by cases hs) (fun bs hbs => by cases hbs),
    (claim6_element_rules.2.2.2 [GenValue.text [104]] [[104]] rfl).2 0⟩

/-- C7: encoding a header collection is total — for every collection and
mode flag the serializer produces a value, never hitting the
get_raw().unwrap() panic, sink failures being the only failure channel;
as a Lean function it is a pure function of the (collection, flag) pair. -/
theorem claim7_encode_total (pretty : Bool) (h : Headers) :
    (serializeHeaders pretty h).isSome = true := by
  unfold serializeHeaders
  have hsome := serializeEntries_isSome pretty h h.entries (fun e he => he)
  obtain ⟨g, hg⟩ := Option.isSome_iff_exists.mp hsome
  simp [hg]

/-- C8: timestamp decode accepts exactly the strict
%Y-%m-%dT%H:%M:%SZ shape — the spec's example succeeds, its
offset-bearing variant fails — while encode always goes through the
rfc3339 formatter, which reproduces any strictly parsed value's text
exactly and can emit offset forms the strict pattern rejects. -/
theorem claim8_timestamp :
    deserializeTm (.text (strCodes "2017-06-01T12:00:00Z")) =
      .ok ⟨2017, 6, 1, 12, 0, 0, 0⟩ ∧
    deserializeTm (.text (strCodes "2017-06-01T12:00:00+02:00")) =
      .error "invalid strptime input" ∧
    (∀ t : Tm, serializeTm t = .text (rfc3339 t)) ∧
    (∀ (s : List Nat) (t : Tm), parseTm s = some t →
      t.utcoff = 0 ∧ rfc3339 t = s) ∧
    parseTm (rfc3339 ⟨2017, 6, 1, 12, 0, 0, 7200⟩) = none := by
  refine ⟨rfl, rfl, fun t => rfl, ?_, by decide⟩
  intro s t h
  exact rfc3339_parseTm h

/-- Witness for C8: re-encoding the successfully decoded example value
reproduces its text. -/
theorem claim8_timestamp_witness :
    parseTm (strCodes "2017-06-01T12:00:00Z") =
      some ⟨2017, 6, 1, 12, 0, 0, 0⟩ ∧
    (Tm.utcoff ⟨2017, 6, 1, 12, 0, 0, 0⟩ = 0 ∧
      rfc3339 ⟨2017, 6, 1, 12, 0, 0, 0⟩ = strCodes "2017-06-01T12:00:00Z") :=
  ⟨by decide, claim8_timestamp.2.2.2.1 (strCodes "2017-06-01T12:00:00Z")
    ⟨2017, 6, 1, 12, 0, 0, 0⟩ (by decide)⟩

/-- C9: the owning wrapper delegates transparently to its single inner
value — equality against a T compares the inner values, dereferencing
reads the inner value and writing through then reading yields the written
value, and debug formatting is the inner value's formatting. -/
theorem claim9_serde_delegates {T : Type} [BEq T] [LawfulBEq T]
    (s : Serde T) (t : T) (f : T → String) :
    (Serde.beqInner s t = true ↔ s.val = t) ∧
    Serde.deref s = s.val ∧
    (Serde.derefSet s t).deref = t ∧
    Serde.debugFmt f s = f s.val :=
  ⟨beq_iff_eq, rfl, rfl, rfl⟩

/-- Witness for C9 at a concrete byte-list payload. -/
theorem claim9_serde_delegates_witness :
    (Serde.beqInner (Serde.mk ([5] : List Nat)) [5] = true ↔
      (Serde.mk ([5] : List Nat)).val = [5]) ∧
    Serde.deref (Serde.mk ([5] : List Nat)) = (Serde.mk ([5] : List Nat)).val ∧
    (Serde.derefSet (Serde.mk ([5] : List Nat)) [5]).deref = [5] ∧
    Serde.debugFmt (fun _ => "k") (Serde.mk ([5] : List Nat)) =
      (fun _ => "k") (Serde.mk ([5] : List Nat)).val :=
  claim9_serde_delegates _ _ _

/-- C10: serializing through the owning Serde wrapper always uses compact
mode — Ser::new clears the pretty flag, the wrapper's output coincides
with compact serialization for every collection, pretty output arises
only from serialize_pretty or Ser::new_pretty, and the two modes really
differ on some collection. -/
theorem claim10_serde_compact :
    (∀ (T : Type) (v : T),
      (Ser.new v).pretty = false ∧ (Ser.new_pretty v).pretty = true) ∧
    (∀ s : Serde Headers, Serde.serializeHeaders s = serializeHeaders false s.val) ∧
    (∀ h : Headers, serializeTop h = serializeHeaders false h) ∧
    (∀ h : Headers, serializePretty h = serializeHeaders true h) ∧
    serializeHeaders true ⟨[([65], [[104]])]⟩ ≠
      serializeHeaders false ⟨[([65], [[104]])]⟩ := by
  refine ⟨fun T v => ⟨rfl, rfl⟩, fun s => rfl, fun h => rfl, fun h => rfl, ?_⟩
  have h1 : serializeHeaders true ⟨[([65], [[104]])]⟩ =
      some (.map [(.text [65], .seq 1 [.text [104]])]) := rfl
  have h2 : serializeHeaders false ⟨[([65], [[104]])]⟩ =
      some (.map [(.text [65], .seq 1 [.bytes [104]])]) := rfl
  rw [h1, h2]
  intro hc
  simp at hc

end HyperSerde
